import Mathlib

/-!
Verification of `security_optimized.go` from the `cloudresty/golog` repository
(Go package `emit`).

The Go code is shallowly embedded: Go strings are Lean `String`s viewed as
their lists of characters (`String.data`), Go's byte-oriented `len`,
`strings.Contains`, `strings.HasPrefix`, `strings.HasSuffix`,
`strings.ToLower` and `strings.ToUpper` are modelled character-wise (these
agree with Go on ASCII data; all configured patterns are ASCII).  Go's
`map[string]bool` lookup sets are modelled as `List String` with membership
testing (Go map keys are deduplicated, which is irrelevant for membership
and for the `any`-style pattern loop), and the global mutable
`fieldPatternCache` is modelled by explicit state passing of association
lists (a Go map write on a cache miss is a `cons`; keys are only inserted
when absent, so a front insertion is an exact model).  `map[string]any`
field maps become the inductive `FieldMap`/`Value` below.
-/

namespace Emit

/-- Go `strings.ToLower` (character-wise; `Char.toLower` lowers exactly the
ASCII letters, as Go does on ASCII input). -/
def toLowerStr (s : String) : String :=
  String.mk (s.data.map Char.toLower)

/-- Go `strings.ToUpper` (character-wise). -/
def toUpperStr (s : String) : String :=
  String.mk (s.data.map Char.toUpper)

/-- Go `len` on a string (bytes in Go; characters here — identical on the
ASCII strings this code handles). -/
def golen (s : String) : Nat :=
  s.data.length

/-- Core of Go `strings.Contains` on character lists: does `pat` occur as a
contiguous run inside the second list? -/
def listContainsSub (pat : List Char) : List Char → Bool
  | [] => pat.isEmpty
  | c :: rest => pat.isPrefixOf (c :: rest) || listContainsSub pat rest

/-- Go `strings.Contains s sub`. -/
def strContains (s sub : String) : Bool :=
  listContainsSub sub.data s.data

/-- Go `strings.HasPrefix s pre`. -/
def strHasPre (s pre : String) : Bool :=
  pre.data.isPrefixOf s.data

/-- Go `strings.HasSuffix s suf`. -/
def strHasSuf (s suf : String) : Bool :=
  suf.data.isSuffixOf s.data

/-- Modelled from the spec: the per-category PII display mode owned by the
logger (`piiMode`), a binary switch between masking and showing unmasked;
the constant `SHOW_PII` is declared outside `security_optimized.go`. -/
inductive PIIMode where
  | MASK_PII : PIIMode
  | SHOW_PII : PIIMode
deriving DecidableEq, Repr

/-- Modelled from the spec: the per-category sensitive display mode owned by
the logger (`sensitiveMode`); the constant `SHOW_SENSITIVE` is declared
outside `security_optimized.go`. -/
inductive SensitiveMode where
  | MASK_SENSITIVE : SensitiveMode
  | SHOW_SENSITIVE : SensitiveMode
deriving DecidableEq, Repr

/-- Modelled from the spec: the owning `Logger` object, an external
collaborator supplying the two display modes and the two mask-replacement
strings used by `security_optimized.go`. -/
structure Logger where
  piiMode : PIIMode
  sensitiveMode : SensitiveMode
  piiMaskString : String
  maskString : String

/-- The `fieldPatternCache`: the two per-category verdict caches, keyed by the
raw field name.  Go maps become association lists (first match wins;
inserts happen only on a miss). -/
structure FieldPatternCache where
  piiCache : List (String × Bool)
  sensitiveCache : List (String × Bool)

/-- Lookup in a cache map (`cached, exists := m[fieldName]`). -/
def cacheLookup : List (String × Bool) → String → Option Bool
  | [], _ => none
  | (k, v) :: rest, f => if k = f then some v else cacheLookup rest f

/-- The initial (empty) global cache. -/
def emptyCache : FieldPatternCache :=
  { piiCache := [], sensitiveCache := [] }

/-- Go `ClearFieldCache`: replaces both caches with empty ones. -/
def ClearFieldCache (_c : FieldPatternCache) : FieldPatternCache :=
  { piiCache := [], sensitiveCache := [] }

/-- Go `defaultSensitiveFields` (lines 9–15). -/
def defaultSensitiveFields : List String :=
  ["password", "pwd", "pass", "secret", "key", "token", "auth",
   "credential", "cred", "private", "confidential", "sensitive",
   "api_key", "apikey", "access_token", "refresh_token", "jwt",
   "session", "cookie", "authorization", "bearer", "oauth",
   "client_secret", "private_key", "passphrase", "pin", "code"]

/-- Go `defaultPIIFields` (lines 18–30). -/
def defaultPIIFields : List String :=
  ["email", "mail", "e_mail", "email_address", "emailaddress",
   "phone", "mobile", "telephone", "phone_number", "phonenumber", "tel",
   "ssn", "social_security", "social_security_number", "tax_id",
   "credit_card", "creditcard", "card_number", "cardnumber", "ccn",
   "passport", "passport_number", "license", "driver_license", "dl",
   "name", "first_name", "last_name", "full_name", "firstname", "lastname", "fullname",
   "address", "street", "city", "zip", "zipcode", "postal", "postal_code",
   "ip", "ip_address", "ipaddress", "user_agent", "useragent",
   "dob", "date_of_birth", "birthdate", "birthday", "birth_date",
   "iban", "account_number", "bank_account", "routing_number",
   "username", "user_name", "login", "userid"]

/-- The loop body of `initializeFieldMaps` (lines 55–71): for each pattern,
both the pattern and its uppercase variant are inserted into the lookup
map.  A Go map's key set is modelled as the list of inserted keys. -/
def buildFieldMap : List String → List String
  | [] => []
  | p :: rest => p :: toUpperStr p :: buildFieldMap rest

/-- The global `piiFieldsMap`, as built once by `initializeFieldMaps`. -/
def piiFieldsMap : List String :=
  buildFieldMap defaultPIIFields

/-- The global `sensitiveFieldsMap`, as built once by `initializeFieldMaps`. -/
def sensitiveFieldsMap : List String :=
  buildFieldMap defaultSensitiveFields

/-- The body of the PII pattern loop (lines 96–110): substring containment
plus the boundary/length acceptance policy for one pattern.  A `break` on
the first accepted pattern is an `any` over the loop. -/
def piiLoopTest (lowerFieldName pattern : String) : Bool :=
  strContains lowerFieldName pattern &&
    (decide (3 ≤ golen pattern) || lowerFieldName == pattern ||
      strHasPre lowerFieldName (pattern ++ "_") ||
      strHasSuf lowerFieldName ("_" ++ pattern) ||
      strContains lowerFieldName ("_" ++ pattern ++ "_") ||
      (strHasPre lowerFieldName pattern && decide (golen lowerFieldName / 2 ≤ golen pattern)) ||
      (strHasSuf lowerFieldName pattern && decide (golen lowerFieldName / 2 ≤ golen pattern)))

/-- Lines 89–111 of `isPIIFieldFast`: the cache-miss verdict computation
(exact lookup, then the guarded substring heuristic), with the lookup map
an explicit argument (the Go code reads the global `piiFieldsMap`). -/
def piiVerdictWith (patternsMap : List String) (fieldName : String) : Bool :=
  let lowerFieldName := toLowerStr fieldName
  let isPII := patternsMap.contains lowerFieldName
  if !isPII then
    patternsMap.any fun pattern => piiLoopTest lowerFieldName pattern
  else isPII

/-- Lines 137–149 of `isSensitiveFieldFast`: the cache-miss verdict
computation (exact lookup, then unguarded substring containment). -/
def sensVerdictWith (patternsMap : List String) (fieldName : String) : Bool :=
  let lowerFieldName := toLowerStr fieldName
  let isSensitive := patternsMap.contains lowerFieldName
  if !isSensitive then
    patternsMap.any fun pattern => strContains lowerFieldName pattern
  else isSensitive

/-- Go `isPIIFieldFast` (lines 74–119): mode short-circuit, cache lookup,
verdict computation, cache store.  The global cache is threaded as state. -/
def Logger.isPIIFieldFast (l : Logger) (cache : FieldPatternCache) (fieldName : String) :
    Bool × FieldPatternCache :=
  if l.piiMode = PIIMode.SHOW_PII then
    (false, cache)
  else
    match cacheLookup cache.piiCache fieldName with
    | some cached => (cached, cache)
    | none =>
      let isPII := piiVerdictWith piiFieldsMap fieldName
      (isPII, { cache with piiCache := (fieldName, isPII) :: cache.piiCache })

/-- Go `isSensitiveFieldFast` (lines 122–157). -/
def Logger.isSensitiveFieldFast (l : Logger) (cache : FieldPatternCache) (fieldName : String) :
    Bool × FieldPatternCache :=
  if l.sensitiveMode = SensitiveMode.SHOW_SENSITIVE then
    (false, cache)
  else
    match cacheLookup cache.sensitiveCache fieldName with
    | some cached => (cached, cache)
    | none =>
      let isSensitive := sensVerdictWith sensitiveFieldsMap fieldName
      (isSensitive, { cache with sensitiveCache := (fieldName, isSensitive) :: cache.sensitiveCache })

mutual
/-- A Go `any` value stored in a field map: a string, an integer, a
`map[string]string` (an example of a map type other than `map[string]any`,
which the masker's type assertion does not match), or a nested
`map[string]any`. -/
inductive Value where
  | vstr : String → Value
  | vint : Int → Value
  | vmapStr : List (String × String) → Value
  | vmap : FieldMap → Value

/-- A Go `map[string]any` field map, as a sequence of key/value entries
(Go iterates a map in unspecified order; one order is fixed here — every
per-key verdict is cache-stable, so the resulting map is order-independent). -/
inductive FieldMap where
  | fnil : FieldMap
  | fcons : String → Value → FieldMap → FieldMap
end

/-- Number of entries (`len(fields)`). -/
def FieldMap.length : FieldMap → Nat
  | .fnil => 0
  | .fcons _ _ rest => rest.length + 1

/-- The keys of a field map, in entry order. -/
def FieldMap.keys : FieldMap → List String
  | .fnil => []
  | .fcons k _ rest => k :: rest.keys

/-- Lookup of a key's value in a field map. -/
def FieldMap.lookupFM : FieldMap → String → Option Value
  | .fnil, _ => none
  | .fcons k v rest, f => if k = f then some v else rest.lookupFM f

mutual
/-- The `for key, value := range fields` loop of `maskSensitiveFieldsFast`
(lines 168–182): PII check first, then sensitive check, then the
nested-map type assertion. -/
def maskLoop (l : Logger) : FieldMap → FieldPatternCache → FieldMap × FieldPatternCache
  | .fnil, c => (.fnil, c)
  | .fcons key value rest, c =>
    let p := l.isPIIFieldFast c key
    if p.1 then
      let r := maskLoop l rest p.2
      (.fcons key (.vstr l.piiMaskString) r.1, r.2)
    else
      let s := l.isSensitiveFieldFast p.2 key
      if s.1 then
        let r := maskLoop l rest s.2
        (.fcons key (.vstr l.maskString) r.1, r.2)
      else
        let w := maskValue l value s.2
        let r := maskLoop l rest w.2
        (.fcons key w.1 r.1, r.2)

/-- Lines 174–181: the `value.(map[string]any)` type assertion.  A nested
`map[string]any` is masked by the recursive call to
`maskSensitiveFieldsFast` (whose entry guard is inlined here); every other
value, including a `map[string]string`, is copied unchanged. -/
def maskValue (l : Logger) : Value → FieldPatternCache → Value × FieldPatternCache
  | .vmap nested, c =>
    if (l.sensitiveMode = SensitiveMode.SHOW_SENSITIVE ∧ l.piiMode = PIIMode.SHOW_PII) ∨
        nested.length = 0 then
      (.vmap nested, c)
    else
      let r := maskLoop l nested c
      (.vmap r.1, r.2)
  | v, c => (v, c)
end

/-- Go `maskSensitiveFieldsFast` (lines 160–185). -/
def Logger.maskSensitiveFieldsFast (l : Logger) (fields : FieldMap) (c : FieldPatternCache) :
    FieldMap × FieldPatternCache :=
  if (l.sensitiveMode = SensitiveMode.SHOW_SENSITIVE ∧ l.piiMode = PIIMode.SHOW_PII) ∨
      fields.length = 0 then
    (fields, c)
  else
    maskLoop l fields c

/-- Every verdict stored in a sensitive cache is the one the cache-miss
computation would produce.  The empty cache satisfies this and every
classifier call preserves it, so it is an invariant of all reachable
cache states. -/
def SensConsistent (c : List (String × Bool)) : Prop :=
  ∀ k b, cacheLookup c k = some b → b = sensVerdictWith sensitiveFieldsMap k

/-- Is the character an ASCII capital letter (code 65–90)? -/
def isUpperAscii (ch : Char) : Bool :=
  decide (65 ≤ ch.toNat) && decide (ch.toNat ≤ 90)

/-- A logger with both categories masking. -/
def maskLogger : Logger :=
  { piiMode := PIIMode.MASK_PII, sensitiveMode := SensitiveMode.MASK_SENSITIVE,
    piiMaskString := "[PII]", maskString := "[MASKED]" }

/-- A logger showing PII unmasked while still masking sensitive fields. -/
def showPIILogger : Logger :=
  { piiMode := PIIMode.SHOW_PII, sensitiveMode := SensitiveMode.MASK_SENSITIVE,
    piiMaskString := "[PII]", maskString := "[MASKED]" }

/-- A logger showing both categories unmasked. -/
def showBothLogger : Logger :=
  { piiMode := PIIMode.SHOW_PII, sensitiveMode := SensitiveMode.SHOW_SENSITIVE,
    piiMaskString := "[PII]", maskString := "[MASKED]" }

/-- The nested example map `{"user": {"email": "a@b.com", "id": 7}, "note": "hi"}`. -/
def c7input : FieldMap :=
  .fcons "user" (.vmap (.fcons "email" (.vstr "a@b.com") (.fcons "id" (.vint 7) .fnil)))
    (.fcons "note" (.vstr "hi") .fnil)

/-- A small map with one PII-named key and one sensitive-named key. -/
def c2input : FieldMap :=
  .fcons "email" (.vstr "a@b.com") (.fcons "password" (.vstr "hunter2") .fnil)

/-! ### Cache order: lookups survive the insertions a classifier call makes -/

/-- Cache `d` preserves every verdict cached in `c`. -/
def subCache (c d : List (String × Bool)) : Prop :=
  ∀ k v, cacheLookup c k = some v → cacheLookup d k = some v

/-- Both components of `d` preserve the cached verdicts of `c`. -/
def CacheLE (c d : FieldPatternCache) : Prop :=
  subCache c.piiCache d.piiCache ∧ subCache c.sensitiveCache d.sensitiveCache

theorem subCache_refl (c : List (String × Bool)) : subCache c c :=
  fun _ _ h => h

theorem subCache_trans {a b c : List (String × Bool)}
    (h1 : subCache a b) (h2 : subCache b c) : subCache a c :=
  fun k v h => h2 k v (h1 k v h)

theorem cacheLE_refl (c : FieldPatternCache) : CacheLE c c :=
  ⟨subCache_refl _, subCache_refl _⟩

theorem cacheLE_trans {a b c : FieldPatternCache}
    (h1 : CacheLE a b) (h2 : CacheLE b c) : CacheLE a c :=
  ⟨subCache_trans h1.1 h2.1, subCache_trans h1.2 h2.2⟩

theorem subCache_cons {key : String} {v : Bool} {c : List (String × Bool)}
    (h : cacheLookup c key = none) : subCache c ((key, v) :: c) := by
  intro k w hk
  show (if key = k then some v else cacheLookup c k) = some w
  split
  · next heq => rw [heq] at h; rw [h] at hk; cases hk
  · exact hk

/-! ### Unfolding the classifier calls branch by branch -/

theorem isPII_show (l : Logger) (c : FieldPatternCache) (f : String)
    (h : l.piiMode = PIIMode.SHOW_PII) : l.isPIIFieldFast c f = (false, c) := by
  simp [Logger.isPIIFieldFast, h]

theorem isPII_hit (l : Logger) (c : FieldPatternCache) (f : String) (v : Bool)
    (hm : l.piiMode = PIIMode.MASK_PII) (h : cacheLookup c.piiCache f = some v) :
    l.isPIIFieldFast c f = (v, c) := by
  simp [Logger.isPIIFieldFast, hm, h]

theorem isPII_miss (l : Logger) (c : FieldPatternCache) (f : String)
    (hm : l.piiMode = PIIMode.MASK_PII) (h : cacheLookup c.piiCache f = none) :
    l.isPIIFieldFast c f =
      (piiVerdictWith piiFieldsMap f,
        { c with piiCache := (f, piiVerdictWith piiFieldsMap f) :: c.piiCache }) := by
  simp [Logger.isPIIFieldFast, hm, h]

theorem isSens_show (l : Logger) (c : FieldPatternCache) (f : String)
    (h : l.sensitiveMode = SensitiveMode.SHOW_SENSITIVE) :
    l.isSensitiveFieldFast c f = (false, c) := by
  simp [Logger.isSensitiveFieldFast, h]

theorem isSens_hit (l : Logger) (c : FieldPatternCache) (f : String) (v : Bool)
    (hm : l.sensitiveMode = SensitiveMode.MASK_SENSITIVE)
    (h : cacheLookup c.sensitiveCache f = some v) :
    l.isSensitiveFieldFast c f = (v, c) := by
  simp [Logger.isSensitiveFieldFast, hm, h]

theorem isSens_miss (l : Logger) (c : FieldPatternCache) (f : String)
    (hm : l.sensitiveMode = SensitiveMode.MASK_SENSITIVE)
    (h : cacheLookup c.sensitiveCache f = none) :
    l.isSensitiveFieldFast c f =
      (sensVerdictWith sensitiveFieldsMap f,
        { c with sensitiveCache :=
            (f, sensVerdictWith sensitiveFieldsMap f) :: c.sensitiveCache }) := by
  simp [Logger.isSensitiveFieldFast, hm, h]

/-! ### A classifier call only extends the cache, and caches its own verdict -/

theorem isPII_cacheLE (l : Logger) (c : FieldPatternCache) (f : String) :
    CacheLE c (l.isPIIFieldFast c f).2 := by
  cases hm : l.piiMode with
  | SHOW_PII => rw [isPII_show l c f hm]; exact cacheLE_refl c
  | MASK_PII =>
    cases hc : cacheLookup c.piiCache f with
    | some v => rw [isPII_hit l c f v hm hc]; exact cacheLE_refl c
    | none => rw [isPII_miss l c f hm hc]; exact ⟨subCache_cons hc, subCache_refl _⟩

theorem isSens_cacheLE (l : Logger) (c : FieldPatternCache) (f : String) :
    CacheLE c (l.isSensitiveFieldFast c f).2 := by
  cases hm : l.sensitiveMode with
  | SHOW_SENSITIVE => rw [isSens_show l c f hm]; exact cacheLE_refl c
  | MASK_SENSITIVE =>
    cases hc : cacheLookup c.sensitiveCache f with
    | some v => rw [isSens_hit l c f v hm hc]; exact cacheLE_refl c
    | none => rw [isSens_miss l c f hm hc]; exact ⟨subCache_refl _, subCache_cons hc⟩

theorem isPII_sensCache (l : Logger) (c : FieldPatternCache) (f : String) :
    ((l.isPIIFieldFast c f).2).sensitiveCache = c.sensitiveCache := by
  cases hm : l.piiMode with
  | SHOW_PII => rw [isPII_show l c f hm]
  | MASK_PII =>
    cases hc : cacheLookup c.piiCache f with
    | some v => rw [isPII_hit l c f v hm hc]
    | none => rw [isPII_miss l c f hm hc]

theorem isSens_piiCache (l : Logger) (c : FieldPatternCache) (f : String) :
    ((l.isSensitiveFieldFast c f).2).piiCache = c.piiCache := by
  cases hm : l.sensitiveMode with
  | SHOW_SENSITIVE => rw [isSens_show l c f hm]
  | MASK_SENSITIVE =>
    cases hc : cacheLookup c.sensitiveCache f with
    | some v => rw [isSens_hit l c f v hm hc]
    | none => rw [isSens_miss l c f hm hc]

theorem isPII_lookup_after (l : Logger) (c : FieldPatternCache) (f : String)
    (hm : l.piiMode = PIIMode.MASK_PII) :
    cacheLookup ((l.isPIIFieldFast c f).2).piiCache f = some ((l.isPIIFieldFast c f).1) := by
  cases hc : cacheLookup c.piiCache f with
  | some v => rw [isPII_hit l c f v hm hc]; exact hc
  | none =>
    rw [isPII_miss l c f hm hc]
    show (if f = f then _ else _) = _
    simp

theorem isSens_lookup_after (l : Logger) (c : FieldPatternCache) (f : String)
    (hm : l.sensitiveMode = SensitiveMode.MASK_SENSITIVE) :
    cacheLookup ((l.isSensitiveFieldFast c f).2).sensitiveCache f
      = some ((l.isSensitiveFieldFast c f).1) := by
  cases hc : cacheLookup c.sensitiveCache f with
  | some v => rw [isSens_hit l c f v hm hc]; exact hc
  | none =>
    rw [isSens_miss l c f hm hc]
    show (if f = f then _ else _) = _
    simp

/-- Once a call has run, any later call from a cache that preserves its
entries returns the same verdict. -/
theorem isPII_stable (l : Logger) (c d : FieldPatternCache) (f : String)
    (h : CacheLE (l.isPIIFieldFast c f).2 d) :
    (l.isPIIFieldFast d f).1 = (l.isPIIFieldFast c f).1 := by
  cases hm : l.piiMode with
  | SHOW_PII => rw [isPII_show l c f hm, isPII_show l d f hm]
  | MASK_PII =>
    have h2 := h.1 f _ (isPII_lookup_after l c f hm)
    rw [isPII_hit l d f _ hm h2]

theorem isSens_stable (l : Logger) (c d : FieldPatternCache) (f : String)
    (h : CacheLE (l.isSensitiveFieldFast c f).2 d) :
    (l.isSensitiveFieldFast d f).1 = (l.isSensitiveFieldFast c f).1 := by
  cases hm : l.sensitiveMode with
  | SHOW_SENSITIVE => rw [isSens_show l c f hm, isSens_show l d f hm]
  | MASK_SENSITIVE =>
    have h2 := h.2 f _ (isSens_lookup_after l c f hm)
    rw [isSens_hit l d f _ hm h2]

/-! ### Unfolding the masking loop branch by branch -/

theorem maskLoop_fnil (l : Logger) (c : FieldPatternCache) :
    maskLoop l .fnil c = (.fnil, c) := rfl

theorem maskLoop_cons_pii {l : Logger} {key : String} {value : Value} {rest : FieldMap}
    {c : FieldPatternCache} (h : (l.isPIIFieldFast c key).1 = true) :
    maskLoop l (.fcons key value rest) c =
      (.fcons key (.vstr l.piiMaskString) (maskLoop l rest (l.isPIIFieldFast c key).2).1,
        (maskLoop l rest (l.isPIIFieldFast c key).2).2) := by
  simp [maskLoop, h]

theorem maskLoop_cons_sens {l : Logger} {key : String} {value : Value} {rest : FieldMap}
    {c : FieldPatternCache} (h1 : (l.isPIIFieldFast c key).1 = false)
    (h2 : (l.isSensitiveFieldFast (l.isPIIFieldFast c key).2 key).1 = true) :
    maskLoop l (.fcons key value rest) c =
      (.fcons key (.vstr l.maskString)
          (maskLoop l rest (l.isSensitiveFieldFast (l.isPIIFieldFast c key).2 key).2).1,
        (maskLoop l rest (l.isSensitiveFieldFast (l.isPIIFieldFast c key).2 key).2).2) := by
  simp [maskLoop, h1, h2]

theorem maskLoop_cons_rec {l : Logger} {key : String} {value : Value} {rest : FieldMap}
    {c : FieldPatternCache} (h1 : (l.isPIIFieldFast c key).1 = false)
    (h2 : (l.isSensitiveFieldFast (l.isPIIFieldFast c key).2 key).1 = false) :
    maskLoop l (.fcons key value rest) c =
      (.fcons key
          (maskValue l value (l.isSensitiveFieldFast (l.isPIIFieldFast c key).2 key).2).1
          (maskLoop l rest
            (maskValue l value (l.isSensitiveFieldFast (l.isPIIFieldFast c key).2 key).2).2).1,
        (maskLoop l rest
          (maskValue l value (l.isSensitiveFieldFast (l.isPIIFieldFast c key).2 key).2).2).2) := by
  simp [maskLoop, h1, h2]

/-- The nested-map branch of the type assertion routes through
`maskSensitiveFieldsFast` (its entry guard is what `maskValue` inlines). -/
theorem maskValue_vmap (l : Logger) (fm : FieldMap) (c : FieldPatternCache) :
    maskValue l (.vmap fm) c =
      (.vmap (l.maskSensitiveFieldsFast fm c).1, (l.maskSensitiveFieldsFast fm c).2) := by
  rw [Logger.maskSensitiveFieldsFast]
  by_cases h : (l.sensitiveMode = SensitiveMode.SHOW_SENSITIVE ∧ l.piiMode = PIIMode.SHOW_PII) ∨
      fm.length = 0
  · simp [maskValue, h]
  · simp [maskValue, h]

/-- Every value that is not a nested `map[string]any` is copied unchanged,
with the cache untouched. -/
theorem maskValue_leaf (l : Logger) (v : Value) (c : FieldPatternCache)
    (h : ∀ fm, v ≠ Value.vmap fm) : maskValue l v c = (v, c) := by
  cases v with
  | vstr s => rfl
  | vint n => rfl
  | vmapStr m => rfl
  | vmap fm => exact absurd rfl (h fm)

/-! ### The masking pass preserves keys and only extends the cache -/

theorem maskLoop_keys (l : Logger) :
    ∀ (m : FieldMap) (c : FieldPatternCache),
      FieldMap.keys (maskLoop l m c).1 = FieldMap.keys m
  | .fnil, c => by rw [maskLoop_fnil]
  | .fcons key value rest, c => by
    by_cases h1 : (l.isPIIFieldFast c key).1 = true
    · rw [maskLoop_cons_pii h1]
      show key :: _ = key :: _
      rw [maskLoop_keys l rest]
    · rw [Bool.not_eq_true] at h1
      by_cases h2 : (l.isSensitiveFieldFast (l.isPIIFieldFast c key).2 key).1 = true
      · rw [maskLoop_cons_sens h1 h2]
        show key :: _ = key :: _
        rw [maskLoop_keys l rest]
      · rw [Bool.not_eq_true] at h2
        rw [maskLoop_cons_rec h1 h2]
        show key :: _ = key :: _
        rw [maskLoop_keys l rest]

theorem fieldMapLen_eq_keysLen : ∀ fm : FieldMap, fm.length = fm.keys.length
  | .fnil => rfl
  | .fcons _ _ rest => by
    simp [FieldMap.length, FieldMap.keys, fieldMapLen_eq_keysLen rest]

theorem maskLoop_length (l : Logger) (m : FieldMap) (c : FieldPatternCache) :
    FieldMap.length (maskLoop l m c).1 = FieldMap.length m := by
  rw [fieldMapLen_eq_keysLen, fieldMapLen_eq_keysLen, maskLoop_keys]

mutual
theorem maskLoop_cacheLE (l : Logger) :
    ∀ (m : FieldMap) (c : FieldPatternCache), CacheLE c (maskLoop l m c).2
  | .fnil, c => by rw [maskLoop_fnil]; exact cacheLE_refl c
  | .fcons key value rest, c => by
    by_cases h1 : (l.isPIIFieldFast c key).1 = true
    · rw [maskLoop_cons_pii h1]
      exact cacheLE_trans (isPII_cacheLE l c key) (maskLoop_cacheLE l rest _)
    · rw [Bool.not_eq_true] at h1
      by_cases h2 : (l.isSensitiveFieldFast (l.isPIIFieldFast c key).2 key).1 = true
      · rw [maskLoop_cons_sens h1 h2]
        exact cacheLE_trans (isPII_cacheLE l c key)
          (cacheLE_trans (isSens_cacheLE l _ key) (maskLoop_cacheLE l rest _))
      · rw [Bool.not_eq_true] at h2
        rw [maskLoop_cons_rec h1 h2]
        exact cacheLE_trans (isPII_cacheLE l c key)
          (cacheLE_trans (isSens_cacheLE l _ key)
            (cacheLE_trans (maskValue_cacheLE l value _) (maskLoop_cacheLE l rest _)))

theorem maskValue_cacheLE (l : Logger) :
    ∀ (v : Value) (c : FieldPatternCache), CacheLE c (maskValue l v c).2
  | .vstr _, c => cacheLE_refl c
  | .vint _, c => cacheLE_refl c
  | .vmapStr _, c => cacheLE_refl c
  | .vmap nested, c => by
    rw [maskValue_vmap, Logger.maskSensitiveFieldsFast]
    by_cases h : (l.sensitiveMode = SensitiveMode.SHOW_SENSITIVE ∧
        l.piiMode = PIIMode.SHOW_PII) ∨ nested.length = 0
    · rw [if_pos h]; exact cacheLE_refl c
    · rw [if_neg h]; exact maskLoop_cacheLE l nested c
end

/-! ### Idempotence of the masking pass -/

mutual
theorem maskLoop_idem (l : Logger) :
    ∀ (m : FieldMap) (c d : FieldPatternCache),
      CacheLE (maskLoop l m c).2 d →
      (maskLoop l (maskLoop l m c).1 d).1 = (maskLoop l m c).1
  | .fnil, c, d, _ => by rw [maskLoop_fnil]; rw [maskLoop_fnil]
  | .fcons key value rest, c, d, h => by
    by_cases h1 : (l.isPIIFieldFast c key).1 = true
    · simp only [maskLoop_cons_pii h1] at h ⊢
      have hle1 : CacheLE (l.isPIIFieldFast c key).2 d :=
        cacheLE_trans (maskLoop_cacheLE l rest _) h
      have h1d : (l.isPIIFieldFast d key).1 = true := by
        rw [isPII_stable l c d key hle1]; exact h1
      simp only [maskLoop_cons_pii h1d]
      rw [maskLoop_idem l rest (l.isPIIFieldFast c key).2 (l.isPIIFieldFast d key).2
        (cacheLE_trans h (isPII_cacheLE l d key))]
    · rw [Bool.not_eq_true] at h1
      by_cases h2 : (l.isSensitiveFieldFast (l.isPIIFieldFast c key).2 key).1 = true
      · simp only [maskLoop_cons_sens h1 h2] at h ⊢
        have hle1 : CacheLE (l.isPIIFieldFast c key).2 d :=
          cacheLE_trans (isSens_cacheLE l _ key)
            (cacheLE_trans (maskLoop_cacheLE l rest _) h)
        have h1d : (l.isPIIFieldFast d key).1 = false := by
          rw [isPII_stable l c d key hle1]; exact h1
        have hle2 : CacheLE (l.isSensitiveFieldFast (l.isPIIFieldFast c key).2 key).2
            (l.isPIIFieldFast d key).2 :=
          cacheLE_trans (maskLoop_cacheLE l rest _)
            (cacheLE_trans h (isPII_cacheLE l d key))
        have h2d : (l.isSensitiveFieldFast (l.isPIIFieldFast d key).2 key).1 = true := by
          rw [isSens_stable l (l.isPIIFieldFast c key).2 (l.isPIIFieldFast d key).2 key hle2]
          exact h2
        simp only [maskLoop_cons_sens h1d h2d]
        rw [maskLoop_idem l rest _ _
          (cacheLE_trans h (cacheLE_trans (isPII_cacheLE l d key) (isSens_cacheLE l _ key)))]
      · rw [Bool.not_eq_true] at h2
        simp only [maskLoop_cons_rec h1 h2] at h ⊢
        have hle1 : CacheLE (l.isPIIFieldFast c key).2 d :=
          cacheLE_trans (isSens_cacheLE l _ key)
            (cacheLE_trans (maskValue_cacheLE l value _)
              (cacheLE_trans (maskLoop_cacheLE l rest _) h))
        have h1d : (l.isPIIFieldFast d key).1 = false := by
          rw [isPII_stable l c d key hle1]; exact h1
        have hle2 : CacheLE (l.isSensitiveFieldFast (l.isPIIFieldFast c key).2 key).2
            (l.isPIIFieldFast d key).2 :=
          cacheLE_trans (maskValue_cacheLE l value _)
            (cacheLE_trans (maskLoop_cacheLE l rest _)
              (cacheLE_trans h (isPII_cacheLE l d key)))
        have h2d : (l.isSensitiveFieldFast (l.isPIIFieldFast d key).2 key).1 = false := by
          rw [isSens_stable l (l.isPIIFieldFast c key).2 (l.isPIIFieldFast d key).2 key hle2]
          exact h2
        simp only [maskLoop_cons_rec h1d h2d]
        have hlew : CacheLE
            (maskValue l value (l.isSensitiveFieldFast (l.isPIIFieldFast c key).2 key).2).2
            (l.isSensitiveFieldFast (l.isPIIFieldFast d key).2 key).2 :=
          cacheLE_trans (maskLoop_cacheLE l rest _)
            (cacheLE_trans h
              (cacheLE_trans (isPII_cacheLE l d key) (isSens_cacheLE l _ key)))
        rw [maskValue_idem l value _ _ hlew]
        rw [maskLoop_idem l rest _ _
          (cacheLE_trans h
            (cacheLE_trans (isPII_cacheLE l d key)
              (cacheLE_trans (isSens_cacheLE l _ key) (maskValue_cacheLE l _ _))))]

theorem maskValue_idem (l : Logger) :
    ∀ (v : Value) (c d : FieldPatternCache),
      CacheLE (maskValue l v c).2 d →
      (maskValue l (maskValue l v c).1 d).1 = (maskValue l v c).1
  | .vstr _, _, _, _ => rfl
  | .vint _, _, _, _ => rfl
  | .vmapStr _, _, _, _ => rfl
  | .vmap nested, c, d, h => by
    by_cases hg : (l.sensitiveMode = SensitiveMode.SHOW_SENSITIVE ∧
        l.piiMode = PIIMode.SHOW_PII) ∨ nested.length = 0
    · rw [show maskValue l (.vmap nested) c = (.vmap nested, c) by
        simp [maskValue, hg]]
      rw [show maskValue l (.vmap nested) d = (.vmap nested, d) by
        simp [maskValue, hg]]
    · have e1 : maskValue l (.vmap nested) c =
          (.vmap (maskLoop l nested c).1, (maskLoop l nested c).2) := by
        simp [maskValue, hg]
      rw [e1] at h ⊢
      have hg2 : ¬ ((l.sensitiveMode = SensitiveMode.SHOW_SENSITIVE ∧
          l.piiMode = PIIMode.SHOW_PII) ∨ (maskLoop l nested c).1.length = 0) := by
        rw [maskLoop_length]; exact hg
      have e2 : maskValue l (.vmap (maskLoop l nested c).1) d =
          (.vmap (maskLoop l (maskLoop l nested c).1 d).1,
            (maskLoop l (maskLoop l nested c).1 d).2) := by
        simp [maskValue, hg2]
      rw [e2]
      rw [maskLoop_idem l nested c d h]
end

/-! ### Consistency of the sensitive cache with the pure classification -/

theorem sensConsistent_empty : SensConsistent [] :=
  fun _ _ h => Option.noConfusion h

theorem isSens_consistent (l : Logger) (c : FieldPatternCache) (f : String)
    (hm : l.sensitiveMode = SensitiveMode.MASK_SENSITIVE)
    (hc : SensConsistent c.sensitiveCache) :
    (l.isSensitiveFieldFast c f).1 = sensVerdictWith sensitiveFieldsMap f ∧
      SensConsistent ((l.isSensitiveFieldFast c f).2).sensitiveCache := by
  cases hl : cacheLookup c.sensitiveCache f with
  | some v =>
    rw [isSens_hit l c f v hm hl]
    exact ⟨hc f v hl, hc⟩
  | none =>
    rw [isSens_miss l c f hm hl]
    refine ⟨rfl, ?_⟩
    intro k b hkb
    have hkb2 : (if f = k then some (sensVerdictWith sensitiveFieldsMap f)
        else cacheLookup c.sensitiveCache k) = some b := hkb
    split at hkb2
    · next heq =>
      injection hkb2 with hb
      rw [← hb, ← heq]
    · exact hc k b hkb2

theorem isSens_preserves_consistent (l : Logger) (c : FieldPatternCache) (f : String)
    (hc : SensConsistent c.sensitiveCache) :
    SensConsistent ((l.isSensitiveFieldFast c f).2).sensitiveCache := by
  cases hm : l.sensitiveMode with
  | SHOW_SENSITIVE => rw [isSens_show l c f hm]; exact hc
  | MASK_SENSITIVE => exact (isSens_consistent l c f hm hc).2

mutual
theorem maskLoop_sensConsistent (l : Logger) :
    ∀ (m : FieldMap) (c : FieldPatternCache),
      SensConsistent c.sensitiveCache → SensConsistent ((maskLoop l m c).2).sensitiveCache
  | .fnil, c, hc => by rw [maskLoop_fnil]; exact hc
  | .fcons key value rest, c, hc => by
    have hcp : SensConsistent ((l.isPIIFieldFast c key).2).sensitiveCache := by
      rw [isPII_sensCache]; exact hc
    have hcs : SensConsistent
        ((l.isSensitiveFieldFast (l.isPIIFieldFast c key).2 key).2).sensitiveCache :=
      isSens_preserves_consistent l _ key hcp
    by_cases h1 : (l.isPIIFieldFast c key).1 = true
    · simp only [maskLoop_cons_pii h1]
      exact maskLoop_sensConsistent l rest _ hcp
    · rw [Bool.not_eq_true] at h1
      by_cases h2 : (l.isSensitiveFieldFast (l.isPIIFieldFast c key).2 key).1 = true
      · simp only [maskLoop_cons_sens h1 h2]
        exact maskLoop_sensConsistent l rest _ hcs
      · rw [Bool.not_eq_true] at h2
        simp only [maskLoop_cons_rec h1 h2]
        exact maskLoop_sensConsistent l rest _ (maskValue_sensConsistent l value _ hcs)

theorem maskValue_sensConsistent (l : Logger) :
    ∀ (v : Value) (c : FieldPatternCache),
      SensConsistent c.sensitiveCache → SensConsistent ((maskValue l v c).2).sensitiveCache
  | .vstr _, _, hc => hc
  | .vint _, _, hc => hc
  | .vmapStr _, _, hc => hc
  | .vmap nested, c, hc => by
    by_cases hg : (l.sensitiveMode = SensitiveMode.SHOW_SENSITIVE ∧
        l.piiMode = PIIMode.SHOW_PII) ∨ nested.length = 0
    · rw [show maskValue l (.vmap nested) c = (.vmap nested, c) by simp [maskValue, hg]]
      exact hc
    · rw [show maskValue l (.vmap nested) c =
          (.vmap (maskLoop l nested c).1, (maskLoop l nested c).2) by simp [maskValue, hg]]
      exact maskLoop_sensConsistent l nested c hc
end

/-! ### The show-PII window: values keyed by key classification only -/

/-- Under `SHOW_PII` with sensitive masking, each top-level key of the loop
output is the generic mask exactly when the pure sensitive classification
says so, and a non-nested value under a non-sensitive key is untouched. -/
theorem maskLoop_showPII_lookup (l : Logger)
    (hp : l.piiMode = PIIMode.SHOW_PII)
    (hs : l.sensitiveMode = SensitiveMode.MASK_SENSITIVE) :
    ∀ (m : FieldMap) (c : FieldPatternCache), SensConsistent c.sensitiveCache →
      ∀ k v, m.lookupFM k = some v →
        (sensVerdictWith sensitiveFieldsMap k = true →
          (maskLoop l m c).1.lookupFM k = some (.vstr l.maskString)) ∧
        (sensVerdictWith sensitiveFieldsMap k = false → (∀ fm, v ≠ Value.vmap fm) →
          (maskLoop l m c).1.lookupFM k = some v)
  | .fnil, c, hc, k, v, hk => Option.noConfusion hk
  | .fcons key value rest, c, hc, k, v, hk => by
    have hshow := isPII_show l c key hp
    have h1 : (l.isPIIFieldFast c key).1 = false := by rw [hshow]
    have hsv := isSens_consistent l c key hs hc
    by_cases h2 : sensVerdictWith sensitiveFieldsMap key = true
    · have h2c : (l.isSensitiveFieldFast (l.isPIIFieldFast c key).2 key).1 = true := by
        rw [hshow]
        rw [hsv.1]
        exact h2
      rw [maskLoop_cons_sens h1 h2c]
      by_cases hkey : key = k
      · subst hkey
        rw [FieldMap.lookupFM, if_pos rfl] at hk
        injection hk with hv
        constructor
        · intro _
          show (if key = key then _ else _) = _
          rw [if_pos rfl]
        · intro hfalse _
          rw [h2] at hfalse
          cases hfalse
      · rw [FieldMap.lookupFM, if_neg hkey] at hk
        have ih := maskLoop_showPII_lookup l hp hs rest
          (l.isSensitiveFieldFast (l.isPIIFieldFast c key).2 key).2
          (by rw [hshow]; exact hsv.2) k v hk
        constructor
        · intro ht
          show (if key = k then _ else _) = _
          rw [if_neg hkey]
          exact ih.1 ht
        · intro hfalse hleaf
          show (if key = k then _ else _) = _
          rw [if_neg hkey]
          exact ih.2 hfalse hleaf
    · rw [Bool.not_eq_true] at h2
      have h2c : (l.isSensitiveFieldFast (l.isPIIFieldFast c key).2 key).1 = false := by
        rw [hshow]
        rw [hsv.1]
        exact h2
      rw [maskLoop_cons_rec h1 h2c]
      by_cases hkey : key = k
      · subst hkey
        rw [FieldMap.lookupFM, if_pos rfl] at hk
        injection hk with hv
        constructor
        · intro ht
          rw [h2] at ht
          cases ht
        · intro _ hleaf
          have hw : maskValue l value
              (l.isSensitiveFieldFast (l.isPIIFieldFast c key).2 key).2 =
              (value, (l.isSensitiveFieldFast (l.isPIIFieldFast c key).2 key).2) :=
            maskValue_leaf l value _ (hv ▸ hleaf)
          show (if key = key then _ else _) = _
          rw [if_pos rfl, hw, hv]
      · rw [FieldMap.lookupFM, if_neg hkey] at hk
        have ih := maskLoop_showPII_lookup l hp hs rest
          (maskValue l value (l.isSensitiveFieldFast (l.isPIIFieldFast c key).2 key).2).2
          (maskValue_sensConsistent l value _ (by rw [hshow]; exact hsv.2)) k v hk
        constructor
        · intro ht
          show (if key = k then _ else _) = _
          rw [if_neg hkey]
          exact ih.1 ht
        · intro hfalse hleaf
          show (if key = k then _ else _) = _
          rw [if_neg hkey]
          exact ih.2 hfalse hleaf

mutual
/-- Under `SHOW_PII`, a masking pass never touches the PII cache. -/
theorem maskLoop_showPII_piiCache (l : Logger) (hp : l.piiMode = PIIMode.SHOW_PII) :
    ∀ (m : FieldMap) (c : FieldPatternCache),
      ((maskLoop l m c).2).piiCache = c.piiCache
  | .fnil, c => by rw [maskLoop_fnil]
  | .fcons key value rest, c => by
    have hshow := isPII_show l c key hp
    have h1 : (l.isPIIFieldFast c key).1 = false := by rw [hshow]
    by_cases h2 : (l.isSensitiveFieldFast (l.isPIIFieldFast c key).2 key).1 = true
    · simp only [maskLoop_cons_sens h1 h2]
      rw [maskLoop_showPII_piiCache l hp rest _, isSens_piiCache, hshow]
    · rw [Bool.not_eq_true] at h2
      simp only [maskLoop_cons_rec h1 h2]
      rw [maskLoop_showPII_piiCache l hp rest _, maskValue_showPII_piiCache l hp value _,
        isSens_piiCache, hshow]

/-- Under `SHOW_PII`, masking a single value never touches the PII cache. -/
theorem maskValue_showPII_piiCache (l : Logger) (hp : l.piiMode = PIIMode.SHOW_PII) :
    ∀ (v : Value) (c : FieldPatternCache), ((maskValue l v c).2).piiCache = c.piiCache
  | .vstr _, _ => rfl
  | .vint _, _ => rfl
  | .vmapStr _, _ => rfl
  | .vmap nested, c => by
    by_cases hg : (l.sensitiveMode = SensitiveMode.SHOW_SENSITIVE ∧
        l.piiMode = PIIMode.SHOW_PII) ∨ nested.length = 0
    · rw [show maskValue l (.vmap nested) c = (.vmap nested, c) by simp [maskValue, hg]]
    · rw [show maskValue l (.vmap nested) c =
          (.vmap (maskLoop l nested c).1, (maskLoop l nested c).2) by simp [maskValue, hg]]
      exact maskLoop_showPII_piiCache l hp nested c
end

/-! ### Shape of the pure verdicts -/

theorem piiVerdictWith_eq_or (pats : List String) (f : String) :
    piiVerdictWith pats f =
      (pats.contains (toLowerStr f) ||
        pats.any fun pattern => piiLoopTest (toLowerStr f) pattern) := by
  rw [show piiVerdictWith pats f =
      (if !(pats.contains (toLowerStr f)) then
        pats.any fun pattern => piiLoopTest (toLowerStr f) pattern
      else pats.contains (toLowerStr f)) from rfl]
  cases pats.contains (toLowerStr f) <;> rfl

theorem sensVerdictWith_eq_or (pats : List String) (f : String) :
    sensVerdictWith pats f =
      (pats.contains (toLowerStr f) ||
        pats.any fun pattern => strContains (toLowerStr f) pattern) := by
  rw [show sensVerdictWith pats f =
      (if !(pats.contains (toLowerStr f)) then
        pats.any fun pattern => strContains (toLowerStr f) pattern
      else pats.contains (toLowerStr f)) from rfl]
  cases pats.contains (toLowerStr f) <;> rfl

/-! ### Uppercase pattern variants are inert -/

theorem toLower_not_upper (ch : Char) : isUpperAscii (Char.toLower ch) = false := by
  simp only [Char.toLower]
  split
  · next h =>
    have hv : (ch.toNat + 32).isValidChar := Or.inl (by omega)
    rw [Char.ofNat, dif_pos hv]
    have hval : (Char.ofNatAux (ch.toNat + 32) hv).toNat = ch.toNat + 32 := rfl
    simp only [isUpperAscii, hval]
    have h90 : ¬ (ch.toNat + 32 ≤ 90) := by omega
    simp [h90]
  · next h =>
    simp only [isUpperAscii]
    rw [Bool.and_eq_false_iff]
    by_cases h65 : 65 ≤ ch.toNat
    · right
      simp only [decide_eq_false_iff_not]
      omega
    · left
      simp only [decide_eq_false_iff_not]
      omega

/-- A character list contained in another contributes all its characters. -/
theorem listContainsSub_subset {pat : List Char} :
    ∀ {s : List Char}, listContainsSub pat s = true → ∀ ch ∈ pat, ch ∈ s := by
  intro s
  induction s with
  | nil =>
    intro h ch hch
    rw [listContainsSub, List.isEmpty_iff] at h
    subst h
    cases hch
  | cons c rest ih =>
    intro h ch hch
    rw [listContainsSub, Bool.or_eq_true] at h
    cases h with
    | inl hp =>
      have hpre : pat <+: c :: rest := List.isPrefixOf_iff_prefix.mp hp
      exact hpre.sublist.subset hch
    | inr hrec => exact List.mem_cons_of_mem c (ih hrec ch hch)

/-- The case-folded field name cannot contain a pattern that still has an
ASCII capital in it. -/
theorem strContains_lower_no_upper (f pat : String)
    (hup : pat.data.any isUpperAscii = true) :
    strContains (toLowerStr f) pat = false := by
  by_contra hcon
  rw [Bool.not_eq_false] at hcon
  obtain ⟨ch, hch, hchU⟩ := List.any_eq_true.mp hup
  have hmem : ch ∈ (toLowerStr f).data := listContainsSub_subset hcon ch hch
  have hdata : (toLowerStr f).data = f.data.map Char.toLower := rfl
  rw [hdata] at hmem
  obtain ⟨c0, _, hc0⟩ := List.mem_map.mp hmem
  rw [← hc0, toLower_not_upper c0] at hchU
  cases hchU

/-- The case-folded field name cannot equal a pattern that still has an
ASCII capital in it. -/
theorem lower_ne_upper (f pat : String) (hup : pat.data.any isUpperAscii = true) :
    toLowerStr f ≠ pat := by
  intro he
  obtain ⟨ch, hch, hchU⟩ := List.any_eq_true.mp hup
  rw [← he] at hch
  have hdata : (toLowerStr f).data = f.data.map Char.toLower := rfl
  rw [hdata] at hch
  obtain ⟨c0, _, hc0⟩ := List.mem_map.mp hch
  rw [← hc0, toLower_not_upper c0] at hchU
  cases hchU

theorem mem_buildFieldMap (x : String) : ∀ (pats : List String),
    x ∈ buildFieldMap pats ↔ x ∈ pats ∨ ∃ p ∈ pats, x = toUpperStr p
  | [] => by simp [buildFieldMap]
  | p :: rest => by
    simp only [buildFieldMap, List.mem_cons, mem_buildFieldMap x rest]
    constructor
    · rintro (h | h | h | ⟨q, hq, he⟩)
      · exact Or.inl (Or.inl h)
      · exact Or.inr ⟨p, Or.inl rfl, h⟩
      · exact Or.inl (Or.inr h)
      · exact Or.inr ⟨q, Or.inr hq, he⟩
    · rintro ((h | h) | ⟨q, (hq | hq), he⟩)
      · exact Or.inl h
      · exact Or.inr (Or.inr (Or.inl h))
      · exact Or.inr (Or.inl (hq ▸ he))
      · exact Or.inr (Or.inr (Or.inr ⟨q, hq, he⟩))

theorem any_buildFieldMap (g : String → Bool) : ∀ (pats : List String),
    (buildFieldMap pats).any g = (pats.any g || pats.any fun p => g (toUpperStr p))
  | [] => by simp [buildFieldMap]
  | p :: rest => by
    simp only [buildFieldMap, List.any_cons, any_buildFieldMap g rest]
    cases g p <;> cases g (toUpperStr p) <;>
      cases rest.any g <;> cases rest.any (fun p => g (toUpperStr p)) <;> rfl

/-- With every uppercase variant containing an ASCII capital, the exact
stage ignores the variants. -/
theorem contains_buildFieldMap (pats : List String) (f : String)
    (hup : ∀ p ∈ pats, (toUpperStr p).data.any isUpperAscii = true) :
    (buildFieldMap pats).contains (toLowerStr f) = pats.contains (toLowerStr f) := by
  rw [Bool.eq_iff_iff, List.elem_iff, List.elem_iff, mem_buildFieldMap]
  constructor
  · rintro (h | ⟨p, hp, he⟩)
    · exact h
    · exact absurd he (lower_ne_upper f _ (hup p hp))
  · exact fun h => Or.inl h

/-- The heuristic stage ignores the uppercase variants: its per-pattern
test opens with a containment check that they can never pass. -/
theorem piiVerdictWith_buildFieldMap (pats : List String) (f : String)
    (hup : ∀ p ∈ pats, (toUpperStr p).data.any isUpperAscii = true) :
    piiVerdictWith (buildFieldMap pats) f = piiVerdictWith pats f := by
  rw [piiVerdictWith_eq_or, piiVerdictWith_eq_or, contains_buildFieldMap pats f hup,
    any_buildFieldMap]
  have hnone : (pats.any fun p => piiLoopTest (toLowerStr f) (toUpperStr p)) = false := by
    rw [List.any_eq_false]
    intro p hp
    simp only [piiLoopTest, strContains_lower_no_upper f _ (hup p hp), Bool.false_and,
      Bool.false_eq_true, not_false_eq_true]
  rw [hnone, Bool.or_false]

theorem sensVerdictWith_buildFieldMap (pats : List String) (f : String)
    (hup : ∀ p ∈ pats, (toUpperStr p).data.any isUpperAscii = true) :
    sensVerdictWith (buildFieldMap pats) f = sensVerdictWith pats f := by
  rw [sensVerdictWith_eq_or, sensVerdictWith_eq_or, contains_buildFieldMap pats f hup,
    any_buildFieldMap]
  have hnone : (pats.any fun p => strContains (toLowerStr f) (toUpperStr p)) = false := by
    rw [List.any_eq_false]
    intro p hp
    simp [strContains_lower_no_upper f _ (hup p hp)]
  rw [hnone, Bool.or_false]

/-! ### Permutation invariance of the pure verdicts -/

theorem contains_perm {pats1 pats2 : List String} (h : pats1.Perm pats2) (x : String) :
    pats1.contains x = pats2.contains x := by
  rw [Bool.eq_iff_iff, List.elem_iff, List.elem_iff]
  exact h.mem_iff

theorem any_perm {α : Type} {l1 l2 : List α} (h : l1.Perm l2) (g : α → Bool) :
    l1.any g = l2.any g := by
  rw [Bool.eq_iff_iff, List.any_eq_true, List.any_eq_true]
  constructor
  · rintro ⟨x, hx, hgx⟩
    exact ⟨x, h.mem_iff.mp hx, hgx⟩
  · rintro ⟨x, hx, hgx⟩
    exact ⟨x, h.mem_iff.mpr hx, hgx⟩

theorem piiVerdictWith_perm {pats1 pats2 : List String} (h : pats1.Perm pats2) (f : String) :
    piiVerdictWith pats1 f = piiVerdictWith pats2 f := by
  rw [piiVerdictWith_eq_or, piiVerdictWith_eq_or, contains_perm h, any_perm h]

theorem sensVerdictWith_perm {pats1 pats2 : List String} (h : pats1.Perm pats2) (f : String) :
    sensVerdictWith pats1 f = sensVerdictWith pats2 f := by
  rw [sensVerdictWith_eq_or, sensVerdictWith_eq_or, contains_perm h, any_perm h]

/-! ### The claims -/

/-- C1: with the PII display mode masking (and the field not yet cached, so
the miss path computes), `isPIIFieldFast f` returns `true` iff the folded
name is an exact member of the PII lookup map, or some configured PII
pattern is contained in the folded name and the folded name equals the
pattern, or the pattern has length at least 3, or it sits at an underscore
boundary (`pattern_` leading, `_pattern` trailing, `_pattern_` inside), or
it is a prefix or suffix covering at least half the folded name's length. -/
theorem c1_pii_acceptance (l : Logger) (c : FieldPatternCache) (f : String)
    (hm : l.piiMode = PIIMode.MASK_PII) (hc : cacheLookup c.piiCache f = none) :
    ((l.isPIIFieldFast c f).1 = true ↔
      (toLowerStr f ∈ piiFieldsMap ∨
        ∃ p ∈ piiFieldsMap, strContains (toLowerStr f) p = true ∧
          (toLowerStr f = p ∨ 3 ≤ golen p ∨
            strHasPre (toLowerStr f) (p ++ "_") = true ∨
            strHasSuf (toLowerStr f) ("_" ++ p) = true ∨
            strContains (toLowerStr f) ("_" ++ p ++ "_") = true ∨
            (strHasPre (toLowerStr f) p = true ∧ golen (toLowerStr f) / 2 ≤ golen p) ∨
            (strHasSuf (toLowerStr f) p = true ∧ golen (toLowerStr f) / 2 ≤ golen p)))) := by
  rw [isPII_miss l c f hm hc]
  show piiVerdictWith piiFieldsMap f = true ↔ _
  rw [piiVerdictWith_eq_or, Bool.or_eq_true]
  constructor
  · rintro (h | h)
    · exact Or.inl (List.elem_iff.mp h)
    · obtain ⟨p, hp, hpt⟩ := List.any_eq_true.mp h
      rw [piiLoopTest, Bool.and_eq_true] at hpt
      obtain ⟨hcont, hrest⟩ := hpt
      refine Or.inr ⟨p, hp, hcont, ?_⟩
      simp only [Bool.or_eq_true, Bool.and_eq_true, decide_eq_true_eq, beq_iff_eq] at hrest
      itauto
  · rintro (h | ⟨p, hp, hcont, hrest⟩)
    · exact Or.inl (List.elem_iff.mpr h)
    · right
      rw [List.any_eq_true]
      refine ⟨p, hp, ?_⟩
      rw [piiLoopTest, Bool.and_eq_true]
      refine ⟨hcont, ?_⟩
      simp only [Bool.or_eq_true, Bool.and_eq_true, decide_eq_true_eq, beq_iff_eq]
      itauto

theorem c1_witness :
    maskLogger.piiMode = PIIMode.MASK_PII ∧
    cacheLookup emptyCache.piiCache "email" = none ∧
    ((maskLogger.isPIIFieldFast emptyCache "email").1 = true ↔
      (toLowerStr "email" ∈ piiFieldsMap ∨
        ∃ p ∈ piiFieldsMap, strContains (toLowerStr "email") p = true ∧
          (toLowerStr "email" = p ∨ 3 ≤ golen p ∨
            strHasPre (toLowerStr "email") (p ++ "_") = true ∨
            strHasSuf (toLowerStr "email") ("_" ++ p) = true ∨
            strContains (toLowerStr "email") ("_" ++ p ++ "_") = true ∨
            (strHasPre (toLowerStr "email") p = true ∧
              golen (toLowerStr "email") / 2 ≤ golen p) ∨
            (strHasSuf (toLowerStr "email") p = true ∧
              golen (toLowerStr "email") / 2 ≤ golen p)))) :=
  ⟨rfl, rfl, c1_pii_acceptance maskLogger emptyCache "email" rfl rfl⟩

/-- C2: when the PII mode shows unmasked and the sensitive mode masks,
every PII check short-circuits to `false` with the cache untouched, the
whole masking pass leaves the PII cache exactly as it found it, and each
key's value is replaced by the generic mask exactly when the pure
sensitive classification accepts the key, with non-nested values under
non-sensitive keys (in particular PII-named ones) copied unchanged. -/
theorem c2_show_pii_window (l : Logger) (m : FieldMap) (c : FieldPatternCache)
    (hp : l.piiMode = PIIMode.SHOW_PII) (hs : l.sensitiveMode = SensitiveMode.MASK_SENSITIVE)
    (hc : SensConsistent c.sensitiveCache) :
    (∀ (c2 : FieldPatternCache) (f : String), l.isPIIFieldFast c2 f = (false, c2)) ∧
    ((l.maskSensitiveFieldsFast m c).2.piiCache = c.piiCache) ∧
    (∀ k v, m.lookupFM k = some v →
      (sensVerdictWith sensitiveFieldsMap k = true →
        (l.maskSensitiveFieldsFast m c).1.lookupFM k = some (.vstr l.maskString)) ∧
      (sensVerdictWith sensitiveFieldsMap k = false → (∀ fm, v ≠ Value.vmap fm) →
        (l.maskSensitiveFieldsFast m c).1.lookupFM k = some v)) := by
  have hguard : ¬ (l.sensitiveMode = SensitiveMode.SHOW_SENSITIVE ∧
      l.piiMode = PIIMode.SHOW_PII) := by
    intro hand
    rw [hs] at hand
    cases hand.1
  refine ⟨fun c2 f => isPII_show l c2 f hp, ?_, ?_⟩
  · rw [Logger.maskSensitiveFieldsFast]
    split
    · rfl
    · exact maskLoop_showPII_piiCache l hp m c
  · intro k v hk
    rw [Logger.maskSensitiveFieldsFast]
    split
    · next hgu =>
      rcases hgu with hgu | hgu
      · exact absurd hgu hguard
      · have hmn : m = FieldMap.fnil := by
          cases m with
          | fnil => rfl
          | fcons a b r => simp [FieldMap.length] at hgu
        subst hmn
        exact Option.noConfusion hk
    · exact maskLoop_showPII_lookup l hp hs m c hc k v hk

theorem c2_witness :
    (showPIILogger.maskSensitiveFieldsFast c2input emptyCache).2.piiCache =
      emptyCache.piiCache ∧
    (showPIILogger.maskSensitiveFieldsFast c2input emptyCache).1.lookupFM "password" =
      some (.vstr showPIILogger.maskString) ∧
    (showPIILogger.maskSensitiveFieldsFast c2input emptyCache).1.lookupFM "email" =
      some (.vstr "a@b.com") :=
  ⟨(c2_show_pii_window showPIILogger c2input emptyCache rfl rfl sensConsistent_empty).2.1,
   ((c2_show_pii_window showPIILogger c2input emptyCache rfl rfl sensConsistent_empty).2.2
      "password" (.vstr "hunter2") rfl).1 (by decide),
   ((c2_show_pii_window showPIILogger c2input emptyCache rfl rfl sensConsistent_empty).2.2
      "email" (.vstr "a@b.com") rfl).2 (by decide) (fun fm h => Value.noConfusion h)⟩

/-- C3 (counterexample): the claim says `isPIIFieldFast "trip"` is `false`
under masking, but the code returns `true`: pattern `ip` is a suffix of
`trip` and its length 2 is at least `len("trip")/2 = 2`, so the
suffix-half-length disjunct of line 105 accepts it. -/
theorem c3_trip_counterexample :
    ¬ ((maskLogger.isPIIFieldFast emptyCache "trip").1 = false) := by decide

/-- C3 (amended): with the PII display mode masking and `trip` uncached,
`isPIIFieldFast "trip"` returns `true`, because pattern `ip` is contained
in `trip` and is a suffix covering at least half of its length. -/
theorem c3_trip_amended (l : Logger) (c : FieldPatternCache)
    (hm : l.piiMode = PIIMode.MASK_PII) (hc : cacheLookup c.piiCache "trip" = none) :
    (l.isPIIFieldFast c "trip").1 = true ∧
      strHasSuf (toLowerStr "trip") "ip" = true ∧
      golen (toLowerStr "trip") / 2 ≤ golen "ip" := by
  rw [isPII_miss l c "trip" hm hc]
  refine ⟨?_, by decide, by decide⟩
  show piiVerdictWith piiFieldsMap "trip" = true
  decide

theorem c3_trip_witness :
    maskLogger.piiMode = PIIMode.MASK_PII ∧
    cacheLookup emptyCache.piiCache "trip" = none ∧
    (maskLogger.isPIIFieldFast emptyCache "trip").1 = true :=
  ⟨rfl, rfl, (c3_trip_amended maskLogger emptyCache rfl rfl).1⟩

set_option maxRecDepth 8192 in
/-- C4: with the PII display mode masking and the three names uncached,
`description` classifies as non-PII, `ip_address` as PII, and `zip` as
PII with its folded form an exact member of the lookup map. -/
theorem c4_boundary_examples (l : Logger) (c : FieldPatternCache)
    (hm : l.piiMode = PIIMode.MASK_PII)
    (h1 : cacheLookup c.piiCache "description" = none)
    (h2 : cacheLookup c.piiCache "ip_address" = none)
    (h3 : cacheLookup c.piiCache "zip" = none) :
    (l.isPIIFieldFast c "description").1 = false ∧
    (l.isPIIFieldFast c "ip_address").1 = true ∧
    (l.isPIIFieldFast c "zip").1 = true ∧
    piiFieldsMap.contains (toLowerStr "zip") = true := by
  rw [isPII_miss l c "description" hm h1, isPII_miss l c "ip_address" hm h2,
    isPII_miss l c "zip" hm h3]
  refine ⟨?_, ?_, ?_, by decide⟩
  · show piiVerdictWith piiFieldsMap "description" = false
    decide
  · show piiVerdictWith piiFieldsMap "ip_address" = true
    decide
  · show piiVerdictWith piiFieldsMap "zip" = true
    decide

theorem c4_witness :
    (maskLogger.isPIIFieldFast emptyCache "description").1 = false ∧
    (maskLogger.isPIIFieldFast emptyCache "ip_address").1 = true ∧
    (maskLogger.isPIIFieldFast emptyCache "zip").1 = true :=
  ⟨(c4_boundary_examples maskLogger emptyCache rfl rfl rfl rfl).1,
   (c4_boundary_examples maskLogger emptyCache rfl rfl rfl rfl).2.1,
   (c4_boundary_examples maskLogger emptyCache rfl rfl rfl rfl).2.2.1⟩

/-- C5: `maskSensitiveFieldsFast` returns its input unchanged (with the
cache untouched) when both modes show unmasked or the map is empty, and in
every case the output's key sequence is identical to the input's.  The
pointer-identity and fresh-allocation aspects of the claim are memory
facts outside the embedding; non-mutation of the input holds trivially in
the pure model. -/
theorem c5_identity_and_keys (l : Logger) (m : FieldMap) (c : FieldPatternCache) :
    (((l.sensitiveMode = SensitiveMode.SHOW_SENSITIVE ∧ l.piiMode = PIIMode.SHOW_PII) ∨
        m = FieldMap.fnil) → l.maskSensitiveFieldsFast m c = (m, c)) ∧
    FieldMap.keys (l.maskSensitiveFieldsFast m c).1 = FieldMap.keys m := by
  constructor
  · intro h
    rcases h with h | h
    · rw [Logger.maskSensitiveFieldsFast, if_pos (Or.inl h)]
    · subst h
      have hz : FieldMap.length FieldMap.fnil = 0 := rfl
      rw [Logger.maskSensitiveFieldsFast, if_pos (Or.inr hz)]
  · rw [Logger.maskSensitiveFieldsFast]
    split
    · rfl
    · exact maskLoop_keys l m c

theorem c5_witness :
    showBothLogger.maskSensitiveFieldsFast c2input emptyCache = (c2input, emptyCache) ∧
    FieldMap.keys (maskLogger.maskSensitiveFieldsFast c2input emptyCache).1 =
      FieldMap.keys c2input :=
  ⟨(c5_identity_and_keys showBothLogger c2input emptyCache).1 (Or.inl ⟨rfl, rfl⟩),
   (c5_identity_and_keys maskLogger c2input emptyCache).2⟩

/-- C6: masking is idempotent.  Masking the output of a masking pass again,
with the cache as the first pass left it, reproduces that output exactly
(the structural equality covers every nesting level). -/
theorem c6_mask_idempotent (l : Logger) (m : FieldMap) (c : FieldPatternCache) :
    (l.maskSensitiveFieldsFast (l.maskSensitiveFieldsFast m c).1
        (l.maskSensitiveFieldsFast m c).2).1 = (l.maskSensitiveFieldsFast m c).1 := by
  by_cases hg : (l.sensitiveMode = SensitiveMode.SHOW_SENSITIVE ∧
      l.piiMode = PIIMode.SHOW_PII) ∨ m.length = 0
  · have e1 : l.maskSensitiveFieldsFast m c = (m, c) := by
      rw [Logger.maskSensitiveFieldsFast, if_pos hg]
    rw [e1]
    rw [e1]
  · have e1 : l.maskSensitiveFieldsFast m c = maskLoop l m c := by
      rw [Logger.maskSensitiveFieldsFast, if_neg hg]
    rw [e1]
    have hg2 : ¬ ((l.sensitiveMode = SensitiveMode.SHOW_SENSITIVE ∧
        l.piiMode = PIIMode.SHOW_PII) ∨ (maskLoop l m c).1.length = 0) := by
      rw [maskLoop_length]
      exact hg
    rw [show l.maskSensitiveFieldsFast (maskLoop l m c).1 (maskLoop l m c).2 =
        maskLoop l (maskLoop l m c).1 (maskLoop l m c).2 by
      rw [Logger.maskSensitiveFieldsFast, if_neg hg2]]
    exact maskLoop_idem l m c (maskLoop l m c).2 (cacheLE_refl _)

/-- C7: on the nested example map, with both modes masking and an empty
cache, only the nested `email` value is replaced (by the PII mask string);
`id` and `note` keep their values and the nested shape is preserved. -/
theorem c7_nested_example (pm ms : String) :
    ((Logger.mk PIIMode.MASK_PII SensitiveMode.MASK_SENSITIVE pm ms).maskSensitiveFieldsFast
        c7input emptyCache).1 =
      .fcons "user" (.vmap (.fcons "email" (.vstr pm) (.fcons "id" (.vint 7) .fnil)))
        (.fcons "note" (.vstr "hi") .fnil) := rfl

/-- C8: classification is deterministic: a later call on the same field
name, from any cache that preserves the entries the first call left,
returns the first call's verdict (for both categories and in both modes);
the pure verdict is invariant under permutation of the lookup map, so the
heuristic loop's iteration order is irrelevant; and on a cache miss under
masking the returned verdict is exactly that pure function of the field
name and the static pattern set. -/
theorem c8_deterministic_order_independent (l : Logger) (c d : FieldPatternCache)
    (f : String) (pats1 pats2 : List String) :
    (CacheLE (l.isPIIFieldFast c f).2 d →
      (l.isPIIFieldFast d f).1 = (l.isPIIFieldFast c f).1) ∧
    (CacheLE (l.isSensitiveFieldFast c f).2 d →
      (l.isSensitiveFieldFast d f).1 = (l.isSensitiveFieldFast c f).1) ∧
    (pats1.Perm pats2 →
      piiVerdictWith pats1 f = piiVerdictWith pats2 f ∧
        sensVerdictWith pats1 f = sensVerdictWith pats2 f) ∧
    (l.piiMode = PIIMode.MASK_PII → cacheLookup c.piiCache f = none →
      (l.isPIIFieldFast c f).1 = piiVerdictWith piiFieldsMap f) ∧
    (l.sensitiveMode = SensitiveMode.MASK_SENSITIVE →
      cacheLookup c.sensitiveCache f = none →
      (l.isSensitiveFieldFast c f).1 = sensVerdictWith sensitiveFieldsMap f) :=
  ⟨isPII_stable l c d f, isSens_stable l c d f,
   fun h => ⟨piiVerdictWith_perm h f, sensVerdictWith_perm h f⟩,
   fun hm hc => by rw [isPII_miss l c f hm hc],
   fun hm hc => by rw [isSens_miss l c f hm hc]⟩

theorem c8_witness :
    (maskLogger.isPIIFieldFast (maskLogger.isPIIFieldFast emptyCache "email").2 "email").1 =
      (maskLogger.isPIIFieldFast emptyCache "email").1 ∧
    piiVerdictWith ["ip", "email"] "trip" = piiVerdictWith ["email", "ip"] "trip" :=
  ⟨(c8_deterministic_order_independent maskLogger emptyCache
      (maskLogger.isPIIFieldFast emptyCache "email").2 "email" [] []).1 (cacheLE_refl _),
   ((c8_deterministic_order_independent maskLogger emptyCache emptyCache "trip"
      ["ip", "email"] ["email", "ip"]).2.2.1 (List.Perm.swap "email" "ip" [])).1⟩

/-- C9: in the masking loop, a value under a key classifying as neither
PII nor sensitive is recursed into exactly when it is a `map[string]any`
(constructor `vmap`); every other value — including a `map[string]string`
(`vmapStr`) — is copied to the output unchanged, cache untouched. -/
theorem c9_recursion_exactly_on_vmap (l : Logger) (c : FieldPatternCache) :
    (∀ fm, maskValue l (.vmap fm) c =
      (.vmap (l.maskSensitiveFieldsFast fm c).1, (l.maskSensitiveFieldsFast fm c).2)) ∧
    (∀ v, (∀ fm, v ≠ Value.vmap fm) → maskValue l v c = (v, c)) ∧
    (∀ (key : String) (value : Value) (rest : FieldMap),
      (l.isPIIFieldFast c key).1 = false →
      (l.isSensitiveFieldFast (l.isPIIFieldFast c key).2 key).1 = false →
      maskLoop l (.fcons key value rest) c =
        (.fcons key
            (maskValue l value
              (l.isSensitiveFieldFast (l.isPIIFieldFast c key).2 key).2).1
            (maskLoop l rest
              (maskValue l value
                (l.isSensitiveFieldFast (l.isPIIFieldFast c key).2 key).2).2).1,
          (maskLoop l rest
            (maskValue l value
              (l.isSensitiveFieldFast (l.isPIIFieldFast c key).2 key).2).2).2)) :=
  ⟨fun fm => maskValue_vmap l fm c,
   fun v h => maskValue_leaf l v c h,
   fun _ _ _ h1 h2 => maskLoop_cons_rec h1 h2⟩

theorem c9_witness :
    maskValue maskLogger (.vmapStr [("email", "x")]) emptyCache =
      (.vmapStr [("email", "x")], emptyCache) :=
  (c9_recursion_exactly_on_vmap maskLogger emptyCache).2.1 (.vmapStr [("email", "x")])
    (fun _ h => Value.noConfusion h)

/-- C10: the uppercase variants inserted into the lookup maps never change
a verdict: the pure verdicts over the built maps coincide with the
verdicts over the lowercase-only default pattern lists, and on a cache
miss under masking the classifiers return exactly the lowercase-only
verdicts. -/
theorem c10_uppercase_inert (l : Logger) (c : FieldPatternCache) (f : String) :
    (piiVerdictWith piiFieldsMap f = piiVerdictWith defaultPIIFields f) ∧
    (sensVerdictWith sensitiveFieldsMap f = sensVerdictWith defaultSensitiveFields f) ∧
    (l.piiMode = PIIMode.MASK_PII → cacheLookup c.piiCache f = none →
      (l.isPIIFieldFast c f).1 = piiVerdictWith defaultPIIFields f) ∧
    (l.sensitiveMode = SensitiveMode.MASK_SENSITIVE →
      cacheLookup c.sensitiveCache f = none →
      (l.isSensitiveFieldFast c f).1 = sensVerdictWith defaultSensitiveFields f) := by
  have hup1 : ∀ p ∈ defaultPIIFields, (toUpperStr p).data.any isUpperAscii = true := by
    decide
  have hup2 : ∀ p ∈ defaultSensitiveFields, (toUpperStr p).data.any isUpperAscii = true := by
    decide
  have e1 := piiVerdictWith_buildFieldMap defaultPIIFields f hup1
  have e2 := sensVerdictWith_buildFieldMap defaultSensitiveFields f hup2
  refine ⟨e1, e2, fun hm hc => ?_, fun hm hc => ?_⟩
  · rw [isPII_miss l c f hm hc]
    exact e1
  · rw [isSens_miss l c f hm hc]
    exact e2

theorem c10_witness :
    piiVerdictWith piiFieldsMap "Email" = piiVerdictWith defaultPIIFields "Email" ∧
    (maskLogger.isPIIFieldFast emptyCache "Email").1 = piiVerdictWith defaultPIIFields "Email" :=
  ⟨(c10_uppercase_inert maskLogger emptyCache "Email").1,
   (c10_uppercase_inert maskLogger emptyCache "Email").2.2.1 rfl rfl⟩

end Emit
